import Mathlib

/-!
Verification of the lenient numeric/date parsing layer of the `sure-client-rs`
repository (`src/serde.rs`), against its natural-language specification.

Strings are embedded as lists of UTF-8 code units (`List Nat`, each < 256),
because the source's separator heuristics use Rust *byte* positions
(`str::rfind`, `str::len`).  `usize` arithmetic is embedded with an explicit
wrap at `2 ^ 64` where the source can underflow (`s.len() - 3`); this is the
release-profile (wrapping) semantics of the overflow, the debug profile
panics there.  A `rust_decimal::Decimal` is embedded as an integer mantissa
together with a base-10 scale, exactly the data `Decimal::from_str` produces.
-/

set_option autoImplicit false

namespace SureClient

/-! ### Byte strings -/

/-- UTF-8 code units of one character. -/
def utf8Bytes (c : Char) : List Nat :=
  let n := c.toNat
  if n < 128 then [n]
  else if n < 2048 then [192 + n / 64, 128 + n % 64]
  else if n < 65536 then [224 + n / 4096, 128 + n / 64 % 64, 128 + n % 64]
  else [240 + n / 262144, 128 + n / 4096 % 64, 128 + n / 64 % 64, 128 + n % 64]

/-- UTF-8 code units of a string, the representation Rust's `str` exposes. -/
def enc (s : String) : List Nat := (s.data.map utf8Bytes).flatten

deriving instance DecidableEq for Except

/-- `u8::is_ascii_digit`: bytes `b'0'` (48) through `b'9'` (57). -/
def isDigitB (b : Nat) : Bool := 48 ≤ b && b ≤ 57

/-- ASCII whitespace bytes removed by `str::trim` (space, `\t`, `\n`, vertical
tab, form feed, `\r`).  `str::trim` also removes non-ASCII Unicode whitespace;
no input considered below contains any. -/
def isWsB (b : Nat) : Bool := b == 32 || (9 ≤ b && b ≤ 13)

/-- `str::trim` on the byte representation. -/
def trimBytes (l : List Nat) : List Nat :=
  ((l.dropWhile isWsB).reverse.dropWhile isWsB).reverse

/-- `str::rfind(c)`: byte index of the last occurrence of byte `c`. -/
def rfindB : List Nat → Nat → Option Nat
  | [], _ => none
  | b :: bs, c =>
    match rfindB bs c with
    | some i => some (i + 1)
    | none => if b == c then some 0 else none

/-- Width of `usize` on the 64-bit targets the crate builds for. -/
def USIZE : Nat := 2 ^ 64

/-- `usize` subtraction as it behaves in release builds: two's-complement
wrap on underflow.  (With overflow checks enabled the source would panic
instead; see the analysis of the `s.len() - 3` expression below.) -/
def usizeSub (a b : Nat) : Nat := (a + USIZE - b) % USIZE

/-! ### The Decimal model -/

/-- A `rust_decimal::Decimal` value: `mantissa / 10 ^ scale`. -/
structure Dec where
  mantissa : Int
  scale : Nat
deriving DecidableEq, Repr

/-- Numeric equality of decimals, the `PartialEq` used by `rust_decimal`
(compares values, ignoring trailing-zero scale differences). -/
def decimalEq (a b : Dec) : Prop :=
  a.mantissa * (10 : Int) ^ b.scale = b.mantissa * (10 : Int) ^ a.scale

instance (a b : Dec) : Decidable (decimalEq a b) := by
  unfold decimalEq; infer_instance

/-- Errors of the model of `Decimal::from_str`. -/
inductive DecErr where
  | empty
  | noDigits
  | twoDots
  | unknownChar
  | overflow
deriving DecidableEq, Repr

/-- Digit scanner of `Decimal::from_str`: accumulates the mantissa, counts
fractional digits after the first `.`, rejects a second `.` and any byte that
is not a digit, a dot or an underscore. -/
def fromStrScan : List Nat → Nat → Nat → Bool → Bool → Except DecErr (Nat × Nat)
  | [], acc, frac, _, seenDigit =>
    if seenDigit then .ok (acc, frac) else .error .noDigits
  | b :: bs, acc, frac, seenDot, seenDigit =>
    if isDigitB b then
      fromStrScan bs (acc * 10 + (b - 48)) (if seenDot then frac + 1 else frac) seenDot true
    else if b == 46 then
      if seenDot then .error .twoDots
      else fromStrScan bs acc frac true seenDigit
    else if b == 95 then
      fromStrScan bs acc frac seenDot seenDigit
    else .error .unknownChar

/-- Model of `rust_decimal::Decimal::from_str`, over the behaviors the
repository exercises: optional sign, decimal digits with at most one `.`
(a trailing `.` is accepted when a digit was seen, as in `rust_decimal`),
error on an empty or digitless string, on a second `.`, on a foreign byte and
on a mantissa that exceeds 96 bits.  (Rounding of more than 28 fractional
digits is not modelled; no string built by the code under proof reaches it.) -/
def decFromStr (l : List Nat) : Except DecErr Dec :=
  if l = [] then .error .empty
  else
    let neg := l.head? == some 45
    let rest := if l.head? == some 45 || l.head? == some 43 then l.drop 1 else l
    match fromStrScan rest 0 0 false false with
    | .error e => .error e
    | .ok (acc, frac) =>
      if acc < 2 ^ 96 then
        .ok ⟨if neg then -(acc : Int) else (acc : Int), frac⟩
      else .error .overflow

/-! ### The flexible decimal visitor (`FlexibleDecimalVisitor::visit_str`) -/

/-- The filtering loop that keeps only ASCII digits. -/
def keepDigitsOnly (l : List Nat) : List Nat := l.filter isDigitB

/-- The filtering loop that keeps ASCII digits and pushes `out` for every
occurrence of the separator byte `sep` (the source pushes `'.'` for a kept
decimal separator, converting a decimal comma on the way). -/
def keepDigitsAndSep : List Nat → Nat → Nat → List Nat
  | [], _, _ => []
  | b :: bs, sep, out =>
    if isDigitB b then b :: keepDigitsAndSep bs sep out
    else if b == sep then out :: keepDigitsAndSep bs sep out
    else keepDigitsAndSep bs sep out

/-- The source's `(None, Some(_))` guard:
`s.matches(',').count() > 1 || (s.rfind(',').unwrap_or(0) < s.len() - 3)`.
When true, every comma is a thousands separator and is discarded. -/
def commaAllThousands (s : List Nat) : Bool :=
  1 < s.count 44 || (rfindB s 44).getD 0 < usizeSub s.length 3

/-- The source's `(Some(_), None)` guard, symmetric to `commaAllThousands`. -/
def dotAllThousands (s : List Nat) : Bool :=
  1 < s.count 46 || (rfindB s 46).getD 0 < usizeSub s.length 3

/-- The separator-disambiguation `match` of `visit_str` (source lines
140–205), producing the reassembled digit/separator string `final_str` before
the sign and leading-zero fixups.  In the `(Some(dot), Some(comma))` case
equal positions are impossible (one byte is not two characters); the source
marks that arm `unreachable!`. -/
def separatorCore (s : List Nat) : List Nat :=
  match rfindB s 46, rfindB s 44 with
  | some dot_pos, some comma_pos =>
    if comma_pos < dot_pos then keepDigitsAndSep s 46 46
    else keepDigitsAndSep s 44 46
  | none, some _ =>
    if commaAllThousands s then keepDigitsOnly s
    else keepDigitsAndSep s 44 46
  | some _, none =>
    if dotAllThousands s then keepDigitsOnly s
    else keepDigitsAndSep s 46 46
  | none, none => keepDigitsOnly s

namespace FlexibleDecimalVisitor

/-- `FlexibleDecimalVisitor::visit_str` from `src/serde.rs`: trim, detect
negativity (leading `-`, or `(` ... `)` which is stripped), locate the last
`.` and `,`, disambiguate decimal versus thousands separators
(`separatorCore`), reassemble a canonical string and hand it to
`Decimal::from_str`. -/
def visit_str (v : List Nat) : Except DecErr Dec :=
  let s0 := trimBytes v
  let wrapped := s0.head? == some 40 && s0.getLast? == some 41
  let is_negative := wrapped || s0.head? == some 45
  let s := if wrapped then (s0.drop 1).dropLast else s0
  let withNeg := if is_negative then 45 :: separatorCore s else separatorCore s
  let final := if withNeg.head? == some 46 then 48 :: withNeg else withNeg
  decFromStr final

end FlexibleDecimalVisitor

/-- The raw numeric token shapes the deserializer dispatches on.  A JSON
float token (`visit_f64`) is left out of the shallow embedding: IEEE-754
conversion is not modelled, and no claim below is settled on that path. -/
inductive RawToken where
  | str (bytes : List Nat)
  | int64 (n : Int)
  | uint64 (n : Nat)
  | null
deriving DecidableEq

/-- Failure of `deserialize_flexible_decimal`. -/
inductive FlexErr where
  | invalidNullType
  | parse (e : DecErr)
deriving DecidableEq, Repr

/-- `deserialize_flexible_decimal` from `src/serde.rs`.  `FlexibleDecimalVisitor`
implements `visit_i64`, `visit_u64`, `visit_f64` and `visit_str` only; a JSON
`null` therefore reaches serde's default `Visitor::visit_unit`, which returns
an invalid-type error. -/
def deserialize_flexible_decimal : RawToken → Except FlexErr Dec
  | .int64 n => .ok ⟨n, 0⟩
  | .uint64 n => .ok ⟨(n : Int), 0⟩
  | .str v => (FlexibleDecimalVisitor.visit_str v).mapError .parse
  | .null => .error .invalidNullType

/-! ### Duration adapter (`duration_from_secs`) -/

namespace duration_from_secs

/-- `deserialize`: read an `i64` and build `Duration::from_secs(secs as u64)`.
The `as u64` cast is two's-complement: the resulting second count is the
representative of `secs` modulo `2 ^ 64`. -/
def deserialize (secs : Int) : Nat := (secs % (2 ^ 64 : Int)).toNat

/-- `serialize`: emit `duration.as_secs() as i64`, the u64 second count
reinterpreted as a signed 64-bit integer. -/
def serialize (durationSecs : Nat) : Int :=
  if durationSecs < 2 ^ 63 then (durationSecs : Int) else (durationSecs : Int) - 2 ^ 64

end duration_from_secs

/-- Smallest `i64` value. -/
def I64MIN : Int := -(2 ^ 63)

/-- Largest `i64` value. -/
def I64MAX : Int := 2 ^ 63 - 1

/-! ### Date adapters -/

/-- A `chrono::DateTime<Utc>` with whole-second precision, written in civil
UTC components (every value built below has zero subseconds). -/
structure UtcDateTime where
  year : Nat
  month : Nat
  day : Nat
  hour : Nat
  minute : Nat
  second : Nat
deriving DecidableEq, Repr

/-- Gregorian leap-year rule, as `chrono` validates dates. -/
def isLeap (y : Nat) : Bool := y % 4 == 0 && (y % 100 != 0 || y % 400 == 0)

/-- Days in a month of the proleptic Gregorian calendar. -/
def daysInMonth (y m : Nat) : Nat :=
  if m = 2 then (if isLeap y then 29 else 28)
  else if m = 4 ∨ m = 6 ∨ m = 9 ∨ m = 11 then 30 else 31

/-- Calendar validity of a year/month/day triple. -/
def validYMD (y m d : Nat) : Bool :=
  1 ≤ m && m ≤ 12 && 1 ≤ d && d ≤ daysInMonth y m

/-- `NaiveDate::parse_from_str(s, "%Y-%m-%d")` on the `YYYY-MM-DD` wire shape:
four digits, `-`, two digits, `-`, two digits, a calendar-valid date, nothing
trailing. -/
def parseYMD (l : List Nat) : Option (Nat × Nat × Nat) :=
  match l with
  | [y1, y2, y3, y4, 45, m1, m2, 45, d1, d2] =>
    if isDigitB y1 && isDigitB y2 && isDigitB y3 && isDigitB y4 &&
        isDigitB m1 && isDigitB m2 && isDigitB d1 && isDigitB d2 then
      if validYMD (1000 * (y1 - 48) + 100 * (y2 - 48) + 10 * (y3 - 48) + (y4 - 48))
          (10 * (m1 - 48) + (m2 - 48)) (10 * (d1 - 48) + (d2 - 48)) then
        some (1000 * (y1 - 48) + 100 * (y2 - 48) + 10 * (y3 - 48) + (y4 - 48),
          10 * (m1 - 48) + (m2 - 48), 10 * (d1 - 48) + (d2 - 48))
      else none
    else none
  | _ => none

/-- Time-of-day plus offset tail of an RFC 3339 timestamp, restricted to the
zero UTC offsets (`Z`, `+00:00`) that the properties below exercise;
fractional seconds and nonzero offsets do not occur in them. -/
def parseTimePart (l : List Nat) : Option (Nat × Nat × Nat) :=
  match l with
  | [84, h1, h2, 58, n1, n2, 58, s1, s2, 90] =>
    if isDigitB h1 && isDigitB h2 && isDigitB n1 && isDigitB n2 &&
        isDigitB s1 && isDigitB s2 &&
        (10 * (h1 - 48) + (h2 - 48) < 24) && (10 * (n1 - 48) + (n2 - 48) < 60) &&
        (10 * (s1 - 48) + (s2 - 48) < 60) then
      some (10 * (h1 - 48) + (h2 - 48), 10 * (n1 - 48) + (n2 - 48), 10 * (s1 - 48) + (s2 - 48))
    else none
  | [84, h1, h2, 58, n1, n2, 58, s1, s2, 43, 48, 48, 58, 48, 48] =>
    if isDigitB h1 && isDigitB h2 && isDigitB n1 && isDigitB n2 &&
        isDigitB s1 && isDigitB s2 &&
        (10 * (h1 - 48) + (h2 - 48) < 24) && (10 * (n1 - 48) + (n2 - 48) < 60) &&
        (10 * (s1 - 48) + (s2 - 48) < 60) then
      some (10 * (h1 - 48) + (h2 - 48), 10 * (n1 - 48) + (n2 - 48), 10 * (s1 - 48) + (s2 - 48))
    else none
  | _ => none

/-- `DateTime::parse_from_rfc3339`, restricted as `parseTimePart` documents. -/
def parse_from_rfc3339 (l : List Nat) : Option UtcDateTime :=
  match parseYMD (l.take 10), parseTimePart (l.drop 10) with
  | some (y, m, d), some (h, n, s) => some ⟨y, m, d, h, n, s⟩
  | _, _ => none

/-- Digit byte of a value below 10. -/
def digitByte (k : Nat) : Nat := 48 + k

/-- Two-digit zero-padded field (`%m`, `%d`, `%H`, `%M`, `%S`). -/
def pad2 (n : Nat) : List Nat := [digitByte (n / 10 % 10), digitByte (n % 10)]

/-- Four-digit zero-padded field (`%Y` for years 0–9999). -/
def pad4 (n : Nat) : List Nat :=
  [digitByte (n / 1000 % 10), digitByte (n / 100 % 10),
   digitByte (n / 10 % 10), digitByte (n % 10)]

namespace naive_date

/-- `naive_date::deserialize` from `src/serde.rs`: try a full RFC 3339 parse
first; on failure fall back to `%Y-%m-%d` and take midnight UTC of that day. -/
def deserialize (l : List Nat) : Option UtcDateTime :=
  match parse_from_rfc3339 l with
  | some dt => some dt
  | none =>
    match parseYMD l with
    | some (y, m, d) => some ⟨y, m, d, 0, 0, 0⟩
    | none => none

/-- `naive_date::serialize` from `src/serde.rs`: `DateTime::<Utc>::to_rfc3339`,
which for a whole-second UTC value prints `YYYY-MM-DDTHH:MM:SS+00:00`
(years 0–9999). -/
def serialize (dt : UtcDateTime) : List Nat :=
  pad4 dt.year ++ [45] ++ pad2 dt.month ++ [45] ++ pad2 dt.day ++ [84] ++
    pad2 dt.hour ++ [58] ++ pad2 dt.minute ++ [58] ++ pad2 dt.second ++
    [43, 48, 48, 58, 48, 48]

end naive_date

namespace calendar_date

/-- Modelled from the spec: the repository's Calendar Date (`NaiveDate`)
adapter is referenced by the models (`crate::serde::naive_date` on
`NaiveDate`-typed fields, and `crate::serde::naive_date_option`) but its
definition is not among the provided sources; the `naive_date` module that is
present handles `DateTime<Utc>` instead.  Per the spec: deserialize parses
strictly as `YYYY-MM-DD`; any other shape fails. -/
def deserialize (l : List Nat) : Option (Nat × Nat × Nat) := parseYMD l

/-- Modelled from the spec: serialize formats the date as the 10-character
`YYYY-MM-DD` wire form. -/
def serialize (d : Nat × Nat × Nat) : List Nat :=
  pad4 d.1 ++ [45] ++ pad2 d.2.1 ++ [45] ++ pad2 d.2.2

end calendar_date

/-! ### Canonical string representation of a Decimal -/

/-- Base-10 digits, most significant first, by structural recursion on a fuel
bound (so that the kernel can evaluate it). -/
def natDigitsF : Nat → Nat → List Nat
  | 0, _ => []
  | fuel + 1, n => if n < 10 then [n] else natDigitsF fuel (n / 10) ++ [n % 10]

/-- Base-10 digits of a natural number, most significant first (`[0]` for 0),
as `rust_decimal`'s `Display` emits the mantissa. -/
def natDigits (n : Nat) : List Nat := natDigitsF (n + 1) n

/-- Left-pad a digit list with zeros to length at least `k`. -/
def padZeros (l : List Nat) (k : Nat) : List Nat :=
  List.replicate (k - l.length) 0 ++ l

/-- The canonical string (`Display`/`to_string`) of a Decimal: optional `-`,
then the mantissa digits with exactly `scale` of them after a `.` (no point
at scale zero), e.g. `(102345, 4) ↦ "10.2345"` and `(50, 2) ↦ "0.50"`. -/
def reprDec (m : Int) (s : Nat) : List Nat :=
  let ds := padZeros (natDigits m.natAbs) (s + 1)
  let intPart := (ds.take (ds.length - s)).map digitByte
  let fracPart := (ds.drop (ds.length - s)).map digitByte
  (if m < 0 then [45] else []) ++ intPart ++ (if s = 0 then [] else 46 :: fracPart)

theorem natDigitsF_fuel : ∀ (n : Nat) {f : Nat}, n < f → natDigitsF f n = natDigits n := by
  intro n
  induction n using Nat.strong_induction_on with
  | _ n ih =>
    intro f hf
    match f, hf with
    | f + 1, _ =>
      show natDigitsF (f + 1) n = natDigitsF (n + 1) n
      by_cases h10 : n < 10
      · simp [natDigitsF, h10]
      · have hdiv : n / 10 < n := Nat.div_lt_self (by omega) (by omega)
        have h1 : natDigitsF f (n / 10) = natDigits (n / 10) := ih _ hdiv (by omega)
        have h2 : natDigitsF n (n / 10) = natDigits (n / 10) := ih _ hdiv hdiv
        simp [natDigitsF, h10, h1, h2]

/-- The defining equation of `natDigits`. -/
theorem natDigits_eq (n : Nat) :
    natDigits n = if n < 10 then [n] else natDigits (n / 10) ++ [n % 10] := by
  show natDigitsF (n + 1) n = _
  by_cases h10 : n < 10
  · simp [natDigitsF, h10]
  · have hdiv : n / 10 < n := Nat.div_lt_self (by omega) (by omega)
    simp [natDigitsF, h10, natDigitsF_fuel _ (by omega : n / 10 < n)]

/-! ### Claim C1: worked examples of the flexible decimal normalizer -/

/-- Claim C1: the flexible decimal normalizer maps each documented worked
example string to the exact stated Decimal (mantissa and scale are exactly
what `Decimal::from_str` produces for the stated value). -/
theorem flexible_decimal_worked_examples :
    deserialize_flexible_decimal (.str (enc "1000")) = .ok ⟨1000, 0⟩ ∧
    deserialize_flexible_decimal (.str (enc "$1000.00")) = .ok ⟨100000, 2⟩ ∧
    deserialize_flexible_decimal (.str (enc "100,000.00")) = .ok ⟨10000000, 2⟩ ∧
    deserialize_flexible_decimal (.str (enc "100.000,00")) = .ok ⟨10000000, 2⟩ ∧
    deserialize_flexible_decimal (.str (enc "1,234,567.89")) = .ok ⟨123456789, 2⟩ ∧
    deserialize_flexible_decimal (.str (enc "1.234.567,89")) = .ok ⟨123456789, 2⟩ ∧
    deserialize_flexible_decimal (.str (enc "€1.234,56")) = .ok ⟨123456, 2⟩ ∧
    deserialize_flexible_decimal (.str (enc "  $ 5,000.50  ")) = .ok ⟨500050, 2⟩ ∧
    deserialize_flexible_decimal (.str (enc "-123.45")) = .ok ⟨-12345, 2⟩ ∧
    deserialize_flexible_decimal (.str (enc "($1,234.56)")) = .ok ⟨-123456, 2⟩ ∧
    deserialize_flexible_decimal (.str (enc "1,000")) = .ok ⟨1000, 0⟩ ∧
    deserialize_flexible_decimal (.str (enc ".50")) = .ok ⟨50, 2⟩ ∧
    deserialize_flexible_decimal (.str (enc ",50")) = .ok ⟨50, 2⟩ := by
  decide

/-! ### Claim C3: a JSON `null` does not normalize to zero -/

/-- Claim C3 (code bug): the doc comment of `deserialize_flexible_decimal`
promises that null deserializes to `Decimal::zero()`, but the visitor
implements no `visit_unit`/`visit_none`, so serde's default rejects a JSON
`null` with an invalid-type error instead of producing any Decimal. -/
theorem flexible_decimal_null_rejected :
    deserialize_flexible_decimal .null = .error .invalidNullType ∧
    ∀ v : Dec, deserialize_flexible_decimal .null ≠ .ok v := by
  exact ⟨rfl, fun v h => by simp [deserialize_flexible_decimal] at h⟩

/-! ### Claim C4: the `s.len() - 3` underflow -/

/-- Claim C4 (code bug): on a trimmed string shorter than 3 bytes holding a
single separator — `".5"` — the position check computes `s.len() - 3` in
`usize`, which underflows.  Under wrapping (release) semantics modelled here
the guard wraps to `2 ^ 64 - 1`, every position is "before" it, and the
single dot is discarded as a thousands separator: `".5"` parses as 5, not the
0.5 the spec's last-3-characters rule gives.  With overflow checks enabled
(the profile the crate's own tests build under) the same subtraction panics,
so the normalizer is not total as the claim states. -/
theorem flexible_decimal_len_sub_underflow :
    (enc ".5").length < 3 ∧
    usizeSub (enc ".5").length 3 = USIZE - 1 ∧
    deserialize_flexible_decimal (.str (enc ".5")) = .ok ⟨5, 0⟩ ∧
    ¬ decimalEq ⟨5, 0⟩ ⟨5, 1⟩ := by
  decide

/-! ### Claim C7: the Duration adapter -/

/-- Claim C7: for a non-negative `i64` the Duration adapter deserializes to
exactly that many seconds and serializes back to the same integer; for a
negative `i64` the `as u64` cast wraps, yielding `n mod 2 ^ 64` seconds
rather than an error. -/
theorem duration_adapter_roundtrip (n : Int) (hlo : I64MIN ≤ n) (hhi : n ≤ I64MAX) :
    (0 ≤ n →
      (duration_from_secs.deserialize n : Int) = n ∧
      duration_from_secs.serialize (duration_from_secs.deserialize n) = n) ∧
    (n < 0 →
      (duration_from_secs.deserialize n : Int) = n % (2 ^ 64 : Int) ∧
      duration_from_secs.deserialize n = (n + 2 ^ 64).toNat) := by
  unfold duration_from_secs.deserialize duration_from_secs.serialize I64MIN I64MAX at *
  constructor
  · intro hn
    have hmod : n % (2 ^ 64 : Int) = n := Int.emod_eq_of_lt hn (by omega)
    refine ⟨by omega, ?_⟩
    have ht : (n % (2 ^ 64 : Int)).toNat < 2 ^ 63 := by omega
    rw [if_pos ht]
    omega
  · intro hn
    have hge : 0 ≤ n % (2 ^ 64 : Int) := Int.emod_nonneg n (by norm_num)
    have hlt : n % (2 ^ 64 : Int) < 2 ^ 64 := Int.emod_lt_of_pos n (by norm_num)
    have heq : n % (2 ^ 64 : Int) = n + 2 ^ 64 := by omega
    exact ⟨by omega, by omega⟩

/-- Witness for `duration_adapter_roundtrip` at 3600 and −1. -/
theorem duration_adapter_roundtrip_witness :
    duration_from_secs.deserialize 3600 = 3600 ∧
    duration_from_secs.serialize 3600 = 3600 ∧
    duration_from_secs.deserialize (-1) = 2 ^ 64 - 1 := by
  have h1 := (duration_adapter_roundtrip 3600 (by decide) (by decide)).1 (by decide)
  have h2 := (duration_adapter_roundtrip (-1) (by decide) (by decide)).2 (by decide)
  have hd : duration_from_secs.deserialize 3600 = 3600 := by
    have := h1.1; omega
  refine ⟨hd, ?_, by have := h2.2; omega⟩
  have := h1.2
  rw [hd] at this
  exact this

/-! ### Counterexamples for claims C2, C8, C9, C10 -/

/-- Claim C2 counterexample: `"1,0"` is trimmed, has one comma, no dot, and
the comma is followed by one trailing character — "something other than
exactly 2" — so the claim says all commas are discarded as thousands
separators (which would give 10).  The code's guard `rfind < len - 3` is
false here, so it converts the comma to a decimal separator instead and
yields 1.0. -/
theorem comma_rule_counterexample :
    trimBytes (enc "1,0") = enc "1,0" ∧
    (enc "1,0").count 44 = 1 ∧
    (enc "1,0").count 46 = 0 ∧
    (enc "1,0").length - 1 - ((rfindB (enc "1,0") 44).getD 0) ≠ 2 ∧
    commaAllThousands (enc "1,0") = false ∧
    deserialize_flexible_decimal (.str (enc "1,0")) = .ok ⟨10, 1⟩ ∧
    ¬ decimalEq ⟨10, 1⟩ ⟨10, 0⟩ := by
  decide

/-- Claim C8 counterexample: attaching `$` as a *suffix* changes the value.
`"1,23"` normalizes to 1.23 (comma in the last-3 position is a decimal
separator), but `"1,23$"` normalizes to 123: the suffix shifts the length,
the comma is no longer within the last 3 bytes, and is discarded. -/
theorem currency_suffix_counterexample :
    deserialize_flexible_decimal (.str (enc "1,23")) = .ok ⟨123, 2⟩ ∧
    enc "1,23" ++ enc "$" = enc "1,23$" ∧
    deserialize_flexible_decimal (.str (enc "1,23$")) = .ok ⟨123, 0⟩ ∧
    ¬ decimalEq ⟨123, 2⟩ ⟨123, 0⟩ := by
  decide

/-- Claim C9 counterexample: `"1,0.2345"` normalizes to 10.2345 (four
fractional digits, reachable because the both-separators branch has no
position check).  Its canonical string `"10.2345"` re-normalizes to 102345 —
the single dot is outside the last 3 bytes and is discarded as a thousands
separator — so normalization is not idempotent. -/
theorem idempotence_counterexample :
    deserialize_flexible_decimal (.str (enc "1,0.2345")) = .ok ⟨102345, 4⟩ ∧
    reprDec 102345 4 = enc "10.2345" ∧
    deserialize_flexible_decimal (.str (enc "10.2345")) = .ok ⟨102345, 0⟩ ∧
    ¬ decimalEq ⟨102345, 0⟩ ⟨102345, 4⟩ := by
  decide

/-- Claim C10 counterexample: `".ab"` contains no ASCII digit, yet the
normalizer does not fail: the single dot is kept as a decimal separator, the
reassembled string `"."` gets the leading `0` prepended, and `"0."` parses as
Decimal 0 — silent coercion of unparseable text to zero. -/
theorem no_digit_coerced_to_zero :
    (∀ b ∈ enc ".ab", isDigitB b = false) ∧
    deserialize_flexible_decimal (.str (enc ".ab")) = .ok ⟨0, 0⟩ := by
  decide

/-! ### Claims C5 and C6: the date adapters -/

/-- A successful strict `YYYY-MM-DD` parse determines the input bytes: they
are exactly the zero-padded rendering of the parsed components. -/
theorem parseYMD_shape {l : List Nat} {y m d : Nat} (h : parseYMD l = some (y, m, d)) :
    l = pad4 y ++ ([45] ++ (pad2 m ++ ([45] ++ pad2 d))) ∧
    l.length = 10 ∧ validYMD y m d = true ∧ y < 10000 ∧ m < 100 ∧ d < 100 := by
  unfold parseYMD at h
  split at h
  · split_ifs at h with hdig hval
    simp only [Option.some.injEq, Prod.mk.injEq] at h
    simp only [isDigitB, Bool.and_eq_true, decide_eq_true_eq] at hdig
    obtain ⟨hy, hm, hd⟩ := h
    subst hy hm hd
    refine ⟨?_, rfl, hval, by omega, by omega, by omega⟩
    simp [pad4, pad2, digitByte]
    omega
  · exact Option.noConfusion h

/-- A 10-byte string cannot parse as a full RFC 3339 timestamp: the time part
is missing. -/
theorem rfc3339_none_of_len10 {l : List Nat} (hlen : l.length = 10) :
    parse_from_rfc3339 l = none := by
  unfold parse_from_rfc3339
  have hdrop : l.drop 10 = [] := by
    have := List.drop_eq_nil_iff.mpr (by omega : l.length ≤ 10)
    exact this
  rw [hdrop]
  cases parseYMD (l.take 10) with
  | none => rfl
  | some ymd => obtain ⟨y, m, d⟩ := ymd; rfl

/-- On a calendar-valid `YYYY-MM-DD` string, the Instant adapter's RFC 3339
attempt fails and the fallback produces midnight UTC of that date. -/
theorem naive_date_deserialize_fallback {l : List Nat} {y m d : Nat}
    (h : parseYMD l = some (y, m, d)) :
    naive_date.deserialize l = some ⟨y, m, d, 0, 0, 0⟩ := by
  have hlen : l.length = 10 := (parseYMD_shape h).2.1
  unfold naive_date.deserialize
  rw [rfc3339_none_of_len10 hlen, h]

/-- Claim C6: for every calendar-valid `YYYY-MM-DD` string the Instant
adapter's deserialize succeeds through the fallback path, yielding midnight
UTC of that date; in particular `"2024-01-15"` deserializes identically to
`"2024-01-15T00:00:00Z"`. -/
theorem instant_date_fallback :
    (∀ (l : List Nat) (y m d : Nat), parseYMD l = some (y, m, d) →
      naive_date.deserialize l = some ⟨y, m, d, 0, 0, 0⟩) ∧
    naive_date.deserialize (enc "2024-01-15") =
      naive_date.deserialize (enc "2024-01-15T00:00:00Z") := by
  refine ⟨fun l y m d h => naive_date_deserialize_fallback h, ?_⟩
  decide

/-- Witness for `instant_date_fallback` at a concrete date. -/
theorem instant_date_fallback_witness :
    naive_date.deserialize (enc "2023-06-07") = some ⟨2023, 6, 7, 0, 0, 0⟩ :=
  instant_date_fallback.1 (enc "2023-06-07") 2023 6 7 (by decide)

/-- Claim C5 (spec-modelled Calendar Date adapter): serializing the parse of
any well-formed `YYYY-MM-DD` string returns the identical string, so a date
round-trips losslessly through its wire form. -/
theorem calendar_date_roundtrip (l : List Nat) (y m d : Nat)
    (h : calendar_date.deserialize l = some (y, m, d)) :
    calendar_date.serialize (y, m, d) = l := by
  obtain ⟨hl, -, -, -, -, -⟩ := parseYMD_shape h
  rw [hl]
  unfold calendar_date.serialize
  simp [List.append_assoc]

/-- Witness for `calendar_date_roundtrip` at a concrete date. -/
theorem calendar_date_roundtrip_witness :
    calendar_date.deserialize (enc "2024-01-15") = some (2024, 1, 15) ∧
    calendar_date.serialize (2024, 1, 15) = enc "2024-01-15" :=
  ⟨by decide, calendar_date_roundtrip (enc "2024-01-15") 2024 1 15 (by decide)⟩

/-! ### Claim C2: the single-separator position rule -/

theorem rfindB_some_lt {s : List Nat} {c i : Nat} (h : rfindB s c = some i) :
    i < s.length := by
  induction s generalizing i with
  | nil => exact Option.noConfusion h
  | cons b bs ih =>
    unfold rfindB at h
    cases hr : rfindB bs c with
    | some j =>
      rw [hr] at h
      injection h with h
      subst h
      exact Nat.succ_lt_succ (ih hr)
    | none =>
      rw [hr] at h
      by_cases hb : (b == c) = true
      · rw [if_pos hb] at h
        injection h with h
        subst h
        exact Nat.succ_pos _
      · rw [if_neg hb] at h
        exact Option.noConfusion h

theorem rfindB_some_of_count {s : List Nat} {c : Nat} (h : 0 < s.count c) :
    ∃ i, rfindB s c = some i := by
  induction s with
  | nil => simp at h
  | cons b bs ih =>
    unfold rfindB
    cases hr : rfindB bs c with
    | some j => exact ⟨j + 1, rfl⟩
    | none =>
      by_cases hb : (b == c) = true
      · exact ⟨0, by rw [if_pos hb]⟩
      · exfalso
        rw [List.count_cons, if_neg hb] at h
        obtain ⟨i, hi⟩ := ih (by omega)
        rw [hi] at hr
        exact Option.noConfusion hr

/-- `usizeSub a 3` in closed form: ordinary subtraction for `a ≥ 3`, a wrap
to near `2 ^ 64` for shorter lengths. -/
theorem usizeSub_three (a : Nat) (h : a < USIZE) :
    usizeSub a 3 = if 3 ≤ a then a - 3 else a + USIZE - 3 := by
  unfold usizeSub USIZE at *
  split <;> omega

/-- Claim C2 (amended): for a trimmed string containing at least one comma
and no dot, all commas are thousands separators iff the string has more than
one comma, or is shorter than 3 bytes (where `s.len() - 3` wraps), or more
than 2 characters follow the last comma; with 0, 1 or exactly 2 trailing
characters (length ≥ 3) the single comma is the decimal separator.  The
symmetric rule holds for dots.  The original claim's "other than exactly 2
trailing characters" is refuted by `comma_rule_counterexample`. -/
theorem comma_rule_equivalence (s : List Nat) (hsz : s.length < USIZE)
    (_htrim : trimBytes s = s) :
    (0 < s.count 44 → s.count 46 = 0 →
      (commaAllThousands s = true ↔
        1 < s.count 44 ∨ s.length < 3 ∨ 2 < s.length - 1 - (rfindB s 44).getD 0)) ∧
    (0 < s.count 46 → s.count 44 = 0 →
      (dotAllThousands s = true ↔
        1 < s.count 46 ∨ s.length < 3 ∨ 2 < s.length - 1 - (rfindB s 46).getD 0)) := by
  constructor
  · intro hc _
    obtain ⟨i, hi⟩ := rfindB_some_of_count hc
    have hlt : i < s.length := rfindB_some_lt hi
    unfold commaAllThousands
    rw [hi, usizeSub_three s.length hsz]
    simp only [Option.getD_some, Bool.or_eq_true, decide_eq_true_eq]
    have hU : USIZE = 2 ^ 64 := rfl
    split <;> omega
  · intro hc _
    obtain ⟨i, hi⟩ := rfindB_some_of_count hc
    have hlt : i < s.length := rfindB_some_lt hi
    unfold dotAllThousands
    rw [hi, usizeSub_three s.length hsz]
    simp only [Option.getD_some, Bool.or_eq_true, decide_eq_true_eq]
    have hU : USIZE = 2 ^ 64 := rfl
    split <;> omega

/-- Witness for `comma_rule_equivalence` on `"1,000"` and `"1.000"`. -/
theorem comma_rule_equivalence_witness :
    commaAllThousands (enc "1,000") = true ∧ dotAllThousands (enc "1.000") = true :=
  ⟨((comma_rule_equivalence (enc "1,000") (by decide) (by decide)).1 (by decide)
      (by decide)).mpr (by decide),
   ((comma_rule_equivalence (enc "1.000") (by decide) (by decide)).2 (by decide)
      (by decide)).mpr (by decide)⟩

/-! ### Claim C8: currency-symbol invariance -/

theorem not_ws_of_body {x : Nat} (h : isDigitB x = true ∨ x = 46 ∨ x = 44) :
    isWsB x = false := by
  have hx : 44 ≤ x := by
    rcases h with h | h | h
    · simp only [isDigitB, Bool.and_eq_true, decide_eq_true_eq] at h
      omega
    · omega
    · omega
  have h1 : (x == 32) = false := by
    simp only [beq_eq_false_iff_ne, ne_eq]
    omega
  have h2 : (decide (x ≤ 13)) = false := by
    simp only [decide_eq_false_iff_not]
    omega
  unfold isWsB
  rw [h1, h2, Bool.and_false, Bool.false_or]

theorem dropWhile_eq_self_of_all {p : Nat → Bool} :
    ∀ {l : List Nat}, (∀ b ∈ l, p b = false) → l.dropWhile p = l
  | [], _ => rfl
  | b :: bs, h => by
    have hb : p b = false := h b (List.mem_cons_self b bs)
    simp [List.dropWhile, hb]

theorem trimBytes_eq_self {l : List Nat} (h : ∀ b ∈ l, isWsB b = false) :
    trimBytes l = l := by
  unfold trimBytes
  rw [dropWhile_eq_self_of_all h,
    dropWhile_eq_self_of_all (fun b hb => h b (List.mem_reverse.mp hb)),
    List.reverse_reverse]

theorem rfindB_append (a b : List Nat) (c : Nat) :
    rfindB (a ++ b) c =
      match rfindB b c with
      | some i => some (a.length + i)
      | none => rfindB a c := by
  induction a with
  | nil =>
    cases hb : rfindB b c with
    | some i => simp [hb]
    | none => simp [hb, rfindB]
  | cons x xs ih =>
    show (match rfindB (xs ++ b) c with
      | some i => some (i + 1)
      | none => if x == c then some 0 else none) = _
    rw [ih]
    cases rfindB b c with
    | some i =>
      simp only [List.length_cons, Option.some.injEq]
      omega
    | none => rfl

theorem rfindB_eq_none {l : List Nat} {c : Nat} (h : ∀ x ∈ l, x ≠ c) :
    rfindB l c = none := by
  induction l with
  | nil => rfl
  | cons b bs ih =>
    unfold rfindB
    rw [ih (fun x hx => h x (List.mem_cons_of_mem b hx))]
    rw [if_neg]
    simp only [beq_iff_eq]
    exact h b (List.mem_cons_self b bs)

theorem rfindB_append_of_none {a : List Nat} {c : Nat} (ha : rfindB a c = none)
    (b : List Nat) :
    rfindB (a ++ b) c = (rfindB b c).map (fun i => a.length + i) := by
  rw [rfindB_append]
  cases rfindB b c with
  | some i => rfl
  | none => simpa using ha

theorem rfindB_mem {l : List Nat} {c i : Nat} (h : rfindB l c = some i) : c ∈ l := by
  induction l generalizing i with
  | nil => exact Option.noConfusion h
  | cons b bs ih =>
    unfold rfindB at h
    cases hr : rfindB bs c with
    | some j => exact List.mem_cons_of_mem b (ih hr)
    | none =>
      rw [hr] at h
      by_cases hb : (b == c) = true
      · have : b = c := by simpa [beq_iff_eq] using hb
        exact this ▸ List.mem_cons_self b bs
      · rw [if_neg hb] at h
        exact Option.noConfusion h

theorem keepDigitsAndSep_append (a b : List Nat) (sep out : Nat) :
    keepDigitsAndSep (a ++ b) sep out =
      keepDigitsAndSep a sep out ++ keepDigitsAndSep b sep out := by
  induction a with
  | nil => rfl
  | cons x xs ih =>
    simp only [List.cons_append, keepDigitsAndSep]
    split_ifs <;> simp [ih]

theorem keepDigitsAndSep_eq_nil {l : List Nat} {sep out : Nat}
    (h : ∀ x ∈ l, isDigitB x = false ∧ x ≠ sep) : keepDigitsAndSep l sep out = [] := by
  induction l with
  | nil => rfl
  | cons b bs ih =>
    obtain ⟨hd, hs⟩ := h b (List.mem_cons_self b bs)
    simp only [keepDigitsAndSep, hd, Bool.false_eq_true, if_false]
    rw [if_neg (by simpa [beq_iff_eq] using hs)]
    exact ih (fun x hx => h x (List.mem_cons_of_mem b hx))

theorem keepDigitsOnly_prefix {sym : List Nat} (h : ∀ x ∈ sym, isDigitB x = false)
    (B : List Nat) : keepDigitsOnly (sym ++ B) = keepDigitsOnly B := by
  unfold keepDigitsOnly
  rw [List.filter_append, List.filter_eq_nil_iff.mpr (by simpa using h), List.nil_append]

/-- Prepending bytes that are neither digits nor separators to a string does
not change the reassembled `final_str` of the separator heuristics: the
prefix shifts the last-separator byte position and the byte length equally,
so every branch decision is preserved (provided the body either is at least
3 bytes long or has no separator at all, keeping `len - 3` away from the
wrap). -/
theorem separatorCore_prefix (sym B : List Nat)
    (hsymd : ∀ x ∈ sym, isDigitB x = false ∧ x ≠ 46 ∧ x ≠ 44)
    (hsep : 3 ≤ B.length ∨ (B.count 46 = 0 ∧ B.count 44 = 0))
    (hsz : sym.length + B.length < USIZE) :
    separatorCore (sym ++ B) = separatorCore B := by
  have hU : USIZE = 2 ^ 64 := rfl
  have hs46 : rfindB sym 46 = none := rfindB_eq_none (fun x hx => (hsymd x hx).2.1)
  have hs44 : rfindB sym 44 = none := rfindB_eq_none (fun x hx => (hsymd x hx).2.2)
  have hc46 : (sym ++ B).count 46 = B.count 46 := by
    rw [List.count_append, List.count_eq_zero.mpr (fun hmem => ((hsymd 46 hmem).2.1 rfl)),
      Nat.zero_add]
  have hc44 : (sym ++ B).count 44 = B.count 44 := by
    rw [List.count_append, List.count_eq_zero.mpr (fun hmem => ((hsymd 44 hmem).2.2 rfl)),
      Nat.zero_add]
  have hnil46 : keepDigitsAndSep sym 46 46 = [] :=
    keepDigitsAndSep_eq_nil (fun x hx => ⟨(hsymd x hx).1, (hsymd x hx).2.1⟩)
  have hnil44 : keepDigitsAndSep sym 44 46 = [] :=
    keepDigitsAndSep_eq_nil (fun x hx => ⟨(hsymd x hx).1, (hsymd x hx).2.2⟩)
  have hdonly := keepDigitsOnly_prefix (fun x hx => (hsymd x hx).1) B
  cases h46 : rfindB B 46 with
  | some dp =>
    have l46 : rfindB (sym ++ B) 46 = some (sym.length + dp) := by
      rw [rfindB_append_of_none hs46, h46]; rfl
    cases h44 : rfindB B 44 with
    | some cp =>
      have l44 : rfindB (sym ++ B) 44 = some (sym.length + cp) := by
        rw [rfindB_append_of_none hs44, h44]; rfl
      simp only [separatorCore, l46, l44, h46, h44]
      by_cases hc : cp < dp
      · rw [if_pos (by omega), if_pos hc, keepDigitsAndSep_append, hnil46, List.nil_append]
      · rw [if_neg (by omega), if_neg hc, keepDigitsAndSep_append, hnil44, List.nil_append]
    | none =>
      have l44 : rfindB (sym ++ B) 44 = none := by
        rw [rfindB_append_of_none hs44, h44]; rfl
      have hmem : (46 : Nat) ∈ B := rfindB_mem h46
      have hcnt : 0 < B.count 46 := by
        rcases Nat.eq_zero_or_pos (B.count 46) with hz | hp
        · exact absurd (List.count_eq_zero.mp hz) (by simpa using hmem)
        · exact hp
      have hBlen : 3 ≤ B.length := by
        rcases hsep with h | h
        · exact h
        · omega
      have hdp : dp < B.length := rfindB_some_lt h46
      have hdots : dotAllThousands (sym ++ B) = dotAllThousands B := by
        unfold dotAllThousands
        rw [l46, h46, hc46, List.length_append, usizeSub_three _ (by omega),
          usizeSub_three _ (by omega), if_pos (by omega), if_pos (by omega)]
        simp only [Option.getD_some]
        have : (sym.length + dp < sym.length + B.length - 3) ↔ (dp < B.length - 3) := by
          omega
        rw [decide_eq_decide.mpr this]
      simp only [separatorCore, l46, l44, h46, h44, hdots]
      by_cases ht : dotAllThousands B = true
      · rw [ht, if_pos rfl, if_pos rfl, hdonly]
      · rw [Bool.eq_false_iff.mpr ht, if_neg (by simp), if_neg (by simp),
          keepDigitsAndSep_append, hnil46, List.nil_append]
  | none =>
    have l46 : rfindB (sym ++ B) 46 = none := by
      rw [rfindB_append_of_none hs46, h46]; rfl
    cases h44 : rfindB B 44 with
    | some cp =>
      have l44 : rfindB (sym ++ B) 44 = some (sym.length + cp) := by
        rw [rfindB_append_of_none hs44, h44]; rfl
      have hmem : (44 : Nat) ∈ B := rfindB_mem h44
      have hcnt : 0 < B.count 44 := by
        rcases Nat.eq_zero_or_pos (B.count 44) with hz | hp
        · exact absurd (List.count_eq_zero.mp hz) (by simpa using hmem)
        · exact hp
      have hBlen : 3 ≤ B.length := by
        rcases hsep with h | h
        · exact h
        · omega
      have hcp : cp < B.length := rfindB_some_lt h44
      have hcommas : commaAllThousands (sym ++ B) = commaAllThousands B := by
        unfold commaAllThousands
        rw [l44, h44, hc44, List.length_append, usizeSub_three _ (by omega),
          usizeSub_three _ (by omega), if_pos (by omega), if_pos (by omega)]
        simp only [Option.getD_some]
        have : (sym.length + cp < sym.length + B.length - 3) ↔ (cp < B.length - 3) := by
          omega
        rw [decide_eq_decide.mpr this]
      simp only [separatorCore, l46, l44, h46, h44, hcommas]
      by_cases ht : commaAllThousands B = true
      · rw [ht, if_pos rfl, if_pos rfl, hdonly]
      · rw [Bool.eq_false_iff.mpr ht, if_neg (by simp), if_neg (by simp),
          keepDigitsAndSep_append, hnil44, List.nil_append]
    | none =>
      have l44 : rfindB (sym ++ B) 44 = none := by
        rw [rfindB_append_of_none hs44, h44]; rfl
      simp only [separatorCore, l46, l44, h46, h44, hdonly]

theorem visit_str_prefixInvariant (sym : List Nat) (b : Nat) (t : List Nat)
    (hsym : ∀ x ∈ sym,
      isWsB x = false ∧ isDigitB x = false ∧ x ≠ 46 ∧ x ≠ 44 ∧ x ≠ 40 ∧ x ≠ 45)
    (hsne : sym ≠ [])
    (hb : isDigitB b = true)
    (hbody : ∀ x ∈ b :: t, isDigitB x = true ∨ x = 46 ∨ x = 44)
    (hlen : 3 ≤ (b :: t).length ∨ ((b :: t).count 46 = 0 ∧ (b :: t).count 44 = 0))
    (hsz : sym.length + (b :: t).length < USIZE) :
    FlexibleDecimalVisitor.visit_str (sym ++ b :: t) =
      FlexibleDecimalVisitor.visit_str (b :: t) := by
  have hwB : ∀ x ∈ b :: t, isWsB x = false := fun x hx => not_ws_of_body (hbody x hx)
  have htr2 : trimBytes (b :: t) = b :: t := trimBytes_eq_self hwB
  have htr1 : trimBytes (sym ++ b :: t) = sym ++ b :: t := by
    apply trimBytes_eq_self
    intro x hx
    rcases List.mem_append.mp hx with h | h
    · exact (hsym x h).1
    · exact hwB x h
  cases sym with
  | nil => exact absurd rfl hsne
  | cons s0 ss =>
  have h0 := hsym s0 (List.mem_cons_self s0 ss)
  have hcore : separatorCore (s0 :: ss ++ b :: t) = separatorCore (b :: t) :=
    separatorCore_prefix (s0 :: ss) (b :: t)
      (fun x hx => ⟨(hsym x hx).2.1, (hsym x hx).2.2.1, (hsym x hx).2.2.2.1⟩) hlen hsz
  have hbnum : 48 ≤ b ∧ b ≤ 57 := by
    simpa [isDigitB, Bool.and_eq_true, decide_eq_true_eq] using hb
  have e1 : (some s0 == some (40 : Nat)) = false := by
    simp only [beq_eq_false_iff_ne, ne_eq, Option.some.injEq]
    exact h0.2.2.2.2.1
  have e2 : (some s0 == some (45 : Nat)) = false := by
    simp only [beq_eq_false_iff_ne, ne_eq, Option.some.injEq]
    exact h0.2.2.2.2.2
  have e3 : (some b == some (40 : Nat)) = false := by
    simp only [beq_eq_false_iff_ne, ne_eq, Option.some.injEq]
    omega
  have e4 : (some b == some (45 : Nat)) = false := by
    simp only [beq_eq_false_iff_ne, ne_eq, Option.some.injEq]
    omega
  have hcore2 : separatorCore (s0 :: (ss ++ b :: t)) = separatorCore (b :: t) := hcore
  unfold FlexibleDecimalVisitor.visit_str
  rw [htr1, htr2]
  simp only [List.cons_append, List.head?_cons, e1, e2, e3, e4, Bool.false_and, Bool.false_or,
    Bool.false_eq_true, if_false, hcore2]

/-- Claim C8 (amended): attaching a supported currency symbol (`$`, `€`, `£`)
as a *prefix* to a numeric body that starts with an ASCII digit, consists of
digits, dots and commas, and is at least 3 bytes long (or separator-free)
does not change the normalized value.  Suffix attachment is refuted by
`currency_suffix_counterexample`, and bodies led by `-`, `(` or a separator
(or shorter than 3 bytes, where `s.len() - 3` wraps) are excluded because
the prefix then changes the sign detection or the position check. -/
theorem currency_prefix_invariant (sym : List Nat) (b : Nat) (t : List Nat)
    (hsym : sym = enc "$" ∨ sym = enc "€" ∨ sym = enc "£")
    (hb : isDigitB b = true)
    (hbody : ∀ x ∈ b :: t, isDigitB x = true ∨ x = 46 ∨ x = 44)
    (hlen : 3 ≤ (b :: t).length ∨ ((b :: t).count 46 = 0 ∧ (b :: t).count 44 = 0))
    (hsz : sym.length + (b :: t).length < USIZE) :
    deserialize_flexible_decimal (.str (sym ++ b :: t)) =
      deserialize_flexible_decimal (.str (b :: t)) := by
  have hv : FlexibleDecimalVisitor.visit_str (sym ++ b :: t) =
      FlexibleDecimalVisitor.visit_str (b :: t) := by
    rcases hsym with rfl | rfl | rfl <;>
      exact visit_str_prefixInvariant _ b t (by decide) (by decide) hb hbody hlen hsz
  show Except.mapError FlexErr.parse (FlexibleDecimalVisitor.visit_str (sym ++ b :: t)) =
    Except.mapError FlexErr.parse (FlexibleDecimalVisitor.visit_str (b :: t))
  rw [hv]

/-- Witness for `currency_prefix_invariant`: the euro prefix on `"1.234"`. -/
theorem currency_prefix_invariant_witness :
    deserialize_flexible_decimal (.str (enc "€" ++ 49 :: enc ".234")) =
      deserialize_flexible_decimal (.str (49 :: enc ".234")) ∧
    deserialize_flexible_decimal (.str (49 :: enc ".234")) = .ok ⟨1234, 0⟩ :=
  ⟨currency_prefix_invariant (enc "€") 49 (enc ".234") (Or.inr (Or.inl rfl)) (by decide)
      (by decide) (by decide) (by decide),
    by decide⟩

/-! ### Claim C10: digitless strings -/

theorem mem_trimBytes {l : List Nat} {x : Nat} (h : x ∈ trimBytes l) : x ∈ l := by
  unfold trimBytes at h
  rw [List.mem_reverse] at h
  have h1 : x ∈ (l.dropWhile isWsB).reverse := (List.dropWhile_sublist _).subset h
  rw [List.mem_reverse] at h1
  exact (List.dropWhile_sublist _).subset h1

theorem keepDigitsOnly_eq_nil {l : List Nat} (h : ∀ x ∈ l, isDigitB x = false) :
    keepDigitsOnly l = [] := by
  unfold keepDigitsOnly
  exact List.filter_eq_nil_iff.mpr (by simpa using h)

theorem keepDigitsAndSep_no_digit {l : List Nat} {sep out : Nat}
    (h : ∀ x ∈ l, isDigitB x = false) :
    keepDigitsAndSep l sep out = List.replicate (l.count sep) out := by
  induction l with
  | nil => rfl
  | cons b bs ih =>
    have hb := h b (List.mem_cons_self b bs)
    have ihb := ih (fun x hx => h x (List.mem_cons_of_mem b hx))
    simp only [keepDigitsAndSep, hb, Bool.false_eq_true, if_false]
    rw [List.count_cons]
    by_cases hbs : (b == sep) = true
    · rw [if_pos hbs, if_pos hbs, ihb, List.replicate_succ]
    · rw [if_neg hbs, if_neg hbs, Nat.add_zero, ihb]

theorem separatorCore_no_digit {s : List Nat} (h : ∀ x ∈ s, isDigitB x = false) :
    ∃ k, separatorCore s = List.replicate k 46 := by
  rcases h46 : rfindB s 46 with _ | dp <;> rcases h44 : rfindB s 44 with _ | cp <;>
    simp only [separatorCore, h46, h44] <;> (try split_ifs) <;>
    first
      | exact ⟨0, keepDigitsOnly_eq_nil h⟩
      | exact ⟨s.count 46, keepDigitsAndSep_no_digit h⟩
      | exact ⟨s.count 44, keepDigitsAndSep_no_digit h⟩

theorem fromStrScan_dots_no_digit (k : Nat) :
    fromStrScan (List.replicate k 46) 0 0 false false =
      .error (if k ≤ 1 then DecErr.noDigits else DecErr.twoDots) := by
  match k with
  | 0 => rfl
  | 1 => rfl
  | k + 2 =>
    rw [if_neg (by omega)]
    rfl

theorem fromStrScan_dots_after_digit (k : Nat) :
    fromStrScan (List.replicate k 46) 0 0 false true =
      if k ≤ 1 then .ok (0, 0) else .error DecErr.twoDots := by
  match k with
  | 0 => rfl
  | 1 => rfl
  | k + 2 =>
    rw [if_neg (by omega)]
    rfl

theorem decFromStr_cons_neg (l : List Nat) :
    decFromStr (45 :: l) =
      match fromStrScan l 0 0 false false with
      | .error e => .error e
      | .ok (acc, frac) =>
        if acc < 2 ^ 96 then .ok ⟨-(acc : Int), frac⟩ else .error .overflow := rfl

theorem decFromStr_cons_48 (l : List Nat) :
    decFromStr (48 :: l) =
      match fromStrScan l 0 0 false true with
      | .error e => .error e
      | .ok (acc, frac) =>
        if acc < 2 ^ 96 then .ok ⟨(acc : Int), frac⟩ else .error .overflow := rfl

theorem visit_str_ok_no_digit {s : List Nat} {v : Dec}
    (hnd : ∀ x ∈ s, isDigitB x = false)
    (h : FlexibleDecimalVisitor.visit_str s = .ok v) : v = ⟨0, 0⟩ := by
  have hnd0 : ∀ x ∈ trimBytes s, isDigitB x = false := fun x hx => hnd x (mem_trimBytes hx)
  unfold FlexibleDecimalVisitor.visit_str at h
  dsimp only at h
  by_cases hw : ((trimBytes s).head? == some 40 && (trimBytes s).getLast? == some 41) = true
  · -- parenthesized: is_negative is true, the final string starts with 45
    have hndu : ∀ x ∈ ((trimBytes s).drop 1).dropLast, isDigitB x = false := by
      intro x hx
      exact hnd0 x ((List.drop_sublist 1 _).subset ((List.dropLast_sublist _).subset hx))
    obtain ⟨k, hk⟩ := separatorCore_no_digit hndu
    rw [hw] at h
    simp only [Bool.true_or, if_true, hk] at h
    rw [show ((45 :: List.replicate k 46).head? == some 46) = false from rfl] at h
    simp only [Bool.false_eq_true, if_false, decFromStr_cons_neg, fromStrScan_dots_no_digit]
      at h
    exact absurd h (by simp)
  · have hwf : ((trimBytes s).head? == some 40 && (trimBytes s).getLast? == some 41) = false :=
      Bool.eq_false_iff.mpr hw
    rw [hwf] at h
    simp only [Bool.false_eq_true, if_false, Bool.false_or] at h
    obtain ⟨k, hk⟩ := separatorCore_no_digit hnd0
    rw [hk] at h
    by_cases hn : ((trimBytes s).head? == some 45) = true
    · rw [hn] at h
      simp only [if_true] at h
      rw [show ((45 :: List.replicate k 46).head? == some 46) = false from rfl] at h
      simp only [Bool.false_eq_true, if_false, decFromStr_cons_neg,
        fromStrScan_dots_no_digit] at h
      exact absurd h (by simp)
    · rw [Bool.eq_false_iff.mpr hn] at h
      simp only [Bool.false_eq_true, if_false] at h
      match k with
      | 0 =>
        rw [show ((List.replicate 0 46).head? == some 46) = false from rfl] at h
        simp only [Bool.false_eq_true, if_false] at h
        exact absurd h (by simp [decFromStr])
      | k + 1 =>
        rw [show ((List.replicate (k + 1) 46).head? == some 46) = true from rfl] at h
        simp only [if_true] at h
        match k with
        | 0 =>
          simp only [Nat.zero_add] at h
          rw [show decFromStr (48 :: List.replicate 1 46) = Except.ok ⟨0, 0⟩ from by decide]
            at h
          exact (Except.ok.inj h).symm
        | k + 1 =>
          rw [show decFromStr (48 :: List.replicate (k + 1 + 1) 46) =
                Except.error DecErr.twoDots from by
              rw [decFromStr_cons_48]
              rfl] at h
          exact absurd h (by simp)

/-- Claim C10 (amended): a non-null string with no ASCII digits never
normalizes to a nonzero Decimal — the result is a ParseFailure, or exactly
Decimal 0 in the bare-separator case shown by `no_digit_coerced_to_zero`. -/
theorem no_digit_never_nonzero (s : List Nat) (v : Dec)
    (hnd : ∀ x ∈ s, isDigitB x = false)
    (h : deserialize_flexible_decimal (.str s) = .ok v) : v = ⟨0, 0⟩ := by
  apply visit_str_ok_no_digit hnd
  have hmap : Except.mapError FlexErr.parse (FlexibleDecimalVisitor.visit_str s) = .ok v := h
  cases hvs : FlexibleDecimalVisitor.visit_str s with
  | error e => rw [hvs] at hmap; exact absurd hmap (by simp [Except.mapError])
  | ok w =>
    rw [hvs] at hmap
    simp only [Except.mapError, Except.ok.injEq] at hmap
    rw [hmap]

/-- Witness for `no_digit_never_nonzero` at the concrete digitless input
`"x,y.z"`, which normalizes to `Ok(0)` through the bare-separator path. -/
theorem no_digit_never_nonzero_witness :
    (∀ x ∈ enc "x,y.z", isDigitB x = false) ∧
    deserialize_flexible_decimal (.str (enc "x,y.z")) = .ok ⟨0, 0⟩ ∧
    (⟨0, 0⟩ : Dec) = ⟨0, 0⟩ :=
  ⟨by decide, by decide,
    no_digit_never_nonzero (enc "x,y.z") ⟨0, 0⟩ (by decide) (by decide)⟩

/-! ### Claim C9: normalizing a canonical decimal string -/

/-- Mantissa accumulation over a digit list, as the `from_str` scanner folds. -/
def foldAcc (a : Nat) (ds : List Nat) : Nat := ds.foldl (fun x d => x * 10 + d) a

theorem natDigits_lt_ten : ∀ n : Nat, ∀ d ∈ natDigits n, d < 10 := by
  intro n
  induction n using Nat.strong_induction_on with
  | _ n ih =>
    rw [natDigits_eq]
    split
    · intro d hd
      simp only [List.mem_singleton] at hd
      omega
    · intro d hd
      rcases List.mem_append.mp hd with h | h
      · exact ih (n / 10) (Nat.div_lt_self (by omega) (by omega)) d h
      · simp only [List.mem_singleton] at h
        omega

theorem natDigits_ne_nil (n : Nat) : natDigits n ≠ [] := by
  rw [natDigits_eq]
  split
  · simp
  · simp

theorem foldAcc_append (a : Nat) (l1 l2 : List Nat) :
    foldAcc a (l1 ++ l2) = foldAcc (foldAcc a l1) l2 := by
  unfold foldAcc
  rw [List.foldl_append]

theorem foldAcc_natDigits : ∀ n a : Nat,
    foldAcc a (natDigits n) = a * 10 ^ (natDigits n).length + n := by
  intro n
  induction n using Nat.strong_induction_on with
  | _ n ih =>
    intro a
    rw [natDigits_eq]
    split
    · show foldAcc a [n] = a * 10 ^ ([n] : List Nat).length + n
      simp [foldAcc]
    · rw [foldAcc_append, ih (n / 10) (Nat.div_lt_self (by omega) (by omega))]
      show foldAcc (a * 10 ^ (natDigits (n / 10)).length + n / 10) [n % 10] = _
      simp only [foldAcc, List.foldl_cons, List.foldl_nil, List.length_append,
        List.length_singleton]
      rw [Nat.pow_succ, ← Nat.mul_assoc]
      omega

theorem foldAcc_zeros (k a : Nat) : foldAcc a (List.replicate k 0) = a * 10 ^ k := by
  induction k generalizing a with
  | zero => simp [foldAcc]
  | succ k ih =>
    rw [List.replicate_succ]
    show foldAcc (a * 10 + 0) (List.replicate k 0) = a * 10 ^ (k + 1)
    rw [ih, Nat.pow_succ]
    ring

theorem foldAcc_padZeros (ds : List Nat) (k : Nat) :
    foldAcc 0 (padZeros ds k) = foldAcc 0 ds := by
  unfold padZeros
  rw [foldAcc_append, foldAcc_zeros, Nat.zero_mul]

theorem natDigits_length_le (k : Nat) : ∀ n : Nat, n < 10 ^ k → (natDigits n).length ≤ k + 1 := by
  induction k with
  | zero =>
    intro n h
    have : n = 0 := by simpa using h
    subst this
    rw [natDigits_eq]
    simp
  | succ k ih =>
    intro n h
    rw [natDigits_eq]
    split
    · simp
    · have hp : (10 : Nat) ^ (k + 1) = 10 ^ k * 10 := Nat.pow_succ 10 k
      have hdiv : n / 10 < 10 ^ k := by omega
      have := ih (n / 10) hdiv
      simp only [List.length_append, List.length_singleton]
      omega

theorem fromStrScan_digits_int (ds : List Nat) (hds : ∀ d ∈ ds, d < 10) :
    ∀ (rest : List Nat) (acc frac : Nat) (sdig : Bool),
    fromStrScan (ds.map digitByte ++ rest) acc frac false sdig =
      fromStrScan rest (foldAcc acc ds) frac false (sdig || !ds.isEmpty) := by
  induction ds with
  | nil =>
    intro rest acc frac sdig
    simp [foldAcc]
  | cons d ds ih =>
    intro rest acc frac sdig
    have hd : d < 10 := hds d (List.mem_cons_self d ds)
    have hdig : isDigitB (digitByte d) = true := by
      simp only [isDigitB, digitByte, Bool.and_eq_true, decide_eq_true_eq]
      omega
    simp only [List.map_cons, List.cons_append, fromStrScan, hdig, if_true]
    rw [show digitByte d - 48 = d from by simp [digitByte]]
    simp only [List.append_eq, Bool.false_eq_true, if_false]
    rw [ih (fun x hx => hds x (List.mem_cons_of_mem d hx))]
    simp [foldAcc]

theorem fromStrScan_digits_frac (ds : List Nat) (hds : ∀ d ∈ ds, d < 10) :
    ∀ (rest : List Nat) (acc frac : Nat) (sdig : Bool),
    fromStrScan (ds.map digitByte ++ rest) acc frac true sdig =
      fromStrScan rest (foldAcc acc ds) (frac + ds.length) true (sdig || !ds.isEmpty) := by
  induction ds with
  | nil =>
    intro rest acc frac sdig
    simp [foldAcc]
  | cons d ds ih =>
    intro rest acc frac sdig
    have hd : d < 10 := hds d (List.mem_cons_self d ds)
    have hdig : isDigitB (digitByte d) = true := by
      simp only [isDigitB, digitByte, Bool.and_eq_true, decide_eq_true_eq]
      omega
    simp only [List.map_cons, List.cons_append, fromStrScan, hdig, if_true]
    rw [show digitByte d - 48 = d from by simp [digitByte]]
    simp only [List.append_eq]
    rw [ih (fun x hx => hds x (List.mem_cons_of_mem d hx))]
    rw [show frac + 1 + ds.length = frac + (ds.length + 1) from by omega]
    simp [foldAcc]

theorem fromStrScan_dot_transition (rest : List Nat) (acc frac : Nat) (sdig : Bool) :
    fromStrScan (46 :: rest) acc frac false sdig = fromStrScan rest acc frac true sdig := rfl

theorem padZeros_lt_ten {ds : List Nat} (h : ∀ d ∈ ds, d < 10) (k : Nat) :
    ∀ d ∈ padZeros ds k, d < 10 := by
  intro d hd
  rcases List.mem_append.mp hd with h1 | h1
  · have := List.eq_of_mem_replicate h1
    omega
  · exact h d h1

theorem reprDec_decompose (m : Int) (s : Nat) (hm : m.natAbs < 2 ^ 96) (hs : s ≤ 2) :
    ∃ ip fp : List Nat,
      (∀ d ∈ ip, d < 10) ∧ (∀ d ∈ fp, d < 10) ∧ ip ≠ [] ∧ fp.length = s ∧
      foldAcc 0 (ip ++ fp) = m.natAbs ∧ ip.length ≤ 30 ∧
      reprDec m s = (if m < 0 then [45] else []) ++ ip.map digitByte ++
        (if s = 0 then [] else 46 :: fp.map digitByte) := by
  have hd10 := natDigits_lt_ten m.natAbs
  have hpz10 := padZeros_lt_ten hd10 (s + 1)
  have hdne := natDigits_ne_nil m.natAbs
  have hdpos : 0 < (natDigits m.natAbs).length := List.length_pos.mpr hdne
  have hdle : (natDigits m.natAbs).length ≤ 30 := by
    have h29 : m.natAbs < 10 ^ 29 := by
      have : (2 : Nat) ^ 96 ≤ 10 ^ 29 := by norm_num
      omega
    exact natDigits_length_le 29 m.natAbs h29
  have hLlen : (padZeros (natDigits m.natAbs) (s + 1)).length =
      (s + 1 - (natDigits m.natAbs).length) + (natDigits m.natAbs).length := by
    unfold padZeros
    rw [List.length_append, List.length_replicate]
  refine ⟨(padZeros (natDigits m.natAbs) (s + 1)).take
      ((padZeros (natDigits m.natAbs) (s + 1)).length - s),
    (padZeros (natDigits m.natAbs) (s + 1)).drop
      ((padZeros (natDigits m.natAbs) (s + 1)).length - s),
    fun d hd => hpz10 d (List.take_subset _ _ hd),
    fun d hd => hpz10 d (List.drop_subset _ _ hd), ?_, ?_, ?_, ?_, rfl⟩
  · apply List.ne_nil_of_length_pos
    rw [List.length_take]
    omega
  · rw [List.length_drop]
    omega
  · rw [List.take_append_drop, foldAcc_padZeros]
    rw [foldAcc_natDigits]
    omega
  · rw [List.length_take]
    omega

theorem fromStrScan_reprBody (ip fp : List Nat) (hip : ∀ d ∈ ip, d < 10)
    (hfp : ∀ d ∈ fp, d < 10) (hne : ip ≠ []) (s : Nat) (hlen : fp.length = s) :
    fromStrScan
        (ip.map digitByte ++ (if s = 0 then [] else 46 :: fp.map digitByte)) 0 0 false false =
      .ok (foldAcc 0 (ip ++ fp), s) := by
  have hipe : ip.isEmpty = false := by
    cases ip
    · exact absurd rfl hne
    · rfl
  by_cases h0 : s = 0
  · subst h0
    have hfpnil : fp = [] := List.eq_nil_of_length_eq_zero hlen
    subst hfpnil
    rw [if_pos rfl, fromStrScan_digits_int ip hip, hipe]
    simp [fromStrScan, List.append_nil]
  · rw [if_neg h0, fromStrScan_digits_int ip hip, hipe]
    show fromStrScan (46 :: fp.map digitByte) (foldAcc 0 ip) 0 false true = _
    rw [fromStrScan_dot_transition]
    rw [← List.append_nil (List.map digitByte fp), fromStrScan_digits_frac fp hfp]
    rw [← foldAcc_append]
    simp [fromStrScan, hlen]

theorem decFromStr_cons_digitByte (d : Nat) (hd : d < 10) (l : List Nat) :
    decFromStr (digitByte d :: l) =
      match fromStrScan (digitByte d :: l) 0 0 false false with
      | .error e => .error e
      | .ok (acc, frac) =>
        if acc < 2 ^ 96 then .ok ⟨(acc : Int), frac⟩ else .error .overflow := by
  unfold decFromStr
  rw [if_neg (by simp)]
  have h45 : ((digitByte d :: l).head? == some 45) = false := by
    simp only [List.head?_cons, beq_eq_false_iff_ne, ne_eq, Option.some.injEq, digitByte]
    omega
  have h43 : ((digitByte d :: l).head? == some 43) = false := by
    simp only [List.head?_cons, beq_eq_false_iff_ne, ne_eq, Option.some.injEq, digitByte]
    omega
  rw [h45, h43]
  simp only [Bool.or_self, Bool.false_eq_true, if_false]

theorem decFromStr_repr (m : Int) (s : Nat) (hm : m.natAbs < 2 ^ 96) (hs : s ≤ 2) :
    decFromStr (reprDec m s) = .ok ⟨m, s⟩ := by
  obtain ⟨ip, fp, hip, hfp, hne, hlen, hfold, hiplen, heq⟩ := reprDec_decompose m s hm hs
  have hscan := fromStrScan_reprBody ip fp hip hfp hne s hlen
  rw [hfold] at hscan
  by_cases hneg : m < 0
  · rw [heq, if_pos hneg]
    rw [show ([45] : List Nat) ++ ip.map digitByte ++
          (if s = 0 then [] else 46 :: fp.map digitByte) =
        45 :: (ip.map digitByte ++ (if s = 0 then [] else 46 :: fp.map digitByte)) from by
      simp]
    rw [decFromStr_cons_neg, hscan]
    show (if m.natAbs < 2 ^ 96 then Except.ok (⟨-(m.natAbs : Int), s⟩ : Dec)
        else Except.error DecErr.overflow) = Except.ok ⟨m, s⟩
    rw [if_pos hm]
    simp only [Except.ok.injEq, Dec.mk.injEq, and_true]
    omega
  · rw [heq, if_neg hneg]
    obtain ⟨i0, irest, rfl⟩ : ∃ i0 irest, ip = i0 :: irest := by
      cases ip
      · exact absurd rfl hne
      · exact ⟨_, _, rfl⟩
    have hi0 : i0 < 10 := hip i0 (List.mem_cons_self i0 irest)
    rw [show ([] : List Nat) ++ (i0 :: irest).map digitByte ++
          (if s = 0 then [] else 46 :: fp.map digitByte) =
        digitByte i0 :: (irest.map digitByte ++
          (if s = 0 then [] else 46 :: fp.map digitByte)) from by simp]
    rw [decFromStr_cons_digitByte i0 hi0]
    rw [show fromStrScan (digitByte i0 :: (irest.map digitByte ++
          (if s = 0 then [] else 46 :: fp.map digitByte))) 0 0 false false =
        fromStrScan ((i0 :: irest).map digitByte ++
          (if s = 0 then [] else 46 :: fp.map digitByte)) 0 0 false false from rfl]
    rw [hscan]
    show (if m.natAbs < 2 ^ 96 then Except.ok (⟨(m.natAbs : Int), s⟩ : Dec)
        else Except.error DecErr.overflow) = Except.ok ⟨m, s⟩
    rw [if_pos hm]
    simp only [Except.ok.injEq, Dec.mk.injEq, and_true]
    omega

theorem keepDigitsAndSep_all_digits {l : List Nat} (h : ∀ x ∈ l, isDigitB x = true)
    (sep out : Nat) : keepDigitsAndSep l sep out = l := by
  induction l with
  | nil => rfl
  | cons b bs ih =>
    have hb := h b (List.mem_cons_self b bs)
    simp only [keepDigitsAndSep, hb, if_true]
    rw [ih (fun x hx => h x (List.mem_cons_of_mem b hx))]

theorem visit_str_reprDec (m : Int) (s : Nat) (hm : m.natAbs < 2 ^ 96) (hs : s ≤ 2) :
    FlexibleDecimalVisitor.visit_str (reprDec m s) = .ok ⟨m, s⟩ := by
  obtain ⟨ip, fp, hip, hfp, hne, hlen, hfold, hiplen, heq⟩ := reprDec_decompose m s hm hs
  obtain ⟨i0, irest, rfl⟩ : ∃ i0 irest, ip = i0 :: irest := by
    cases ip
    · exact absurd rfl hne
    · exact ⟨_, _, rfl⟩
  have hi0 : i0 < 10 := hip i0 (List.mem_cons_self i0 irest)
  have hmapdig : ∀ x ∈ (i0 :: irest).map digitByte, isDigitB x = true := by
    intro x hx
    obtain ⟨d, hd, rfl⟩ := List.mem_map.mp hx
    have := hip d hd
    simp only [isDigitB, digitByte, Bool.and_eq_true, decide_eq_true_eq]
    omega
  have hfpdig : ∀ x ∈ fp.map digitByte, isDigitB x = true := by
    intro x hx
    obtain ⟨d, hd, rfl⟩ := List.mem_map.mp hx
    have := hfp d hd
    simp only [isDigitB, digitByte, Bool.and_eq_true, decide_eq_true_eq]
    omega
  have hsignmem : ∀ x ∈ (if m < 0 then ([45] : List Nat) else []), x = 45 := by
    split
    · intro x hx
      simpa using hx
    · intro x hx
      simp at hx
  have hmem : ∀ x ∈ reprDec m s, x = 45 ∨ x = 46 ∨ isDigitB x = true := by
    rw [heq]
    intro x hx
    rcases List.mem_append.mp hx with h1 | h1
    · rcases List.mem_append.mp h1 with h2 | h2
      · exact Or.inl (hsignmem x h2)
      · exact Or.inr (Or.inr (hmapdig x h2))
    · by_cases h0 : s = 0
      · rw [if_pos h0] at h1
        simp at h1
      · rw [if_neg h0] at h1
        rcases List.mem_cons.mp h1 with rfl | h3
        · exact Or.inr (Or.inl rfl)
        · exact Or.inr (Or.inr (hfpdig x h3))
  have hdig_ge {x : Nat} (hx : isDigitB x = true) : 48 ≤ x ∧ x ≤ 57 := by
    simpa [isDigitB, Bool.and_eq_true, decide_eq_true_eq] using hx
  have htrim : trimBytes (reprDec m s) = reprDec m s := by
    apply trimBytes_eq_self
    intro x hx
    rcases hmem x hx with rfl | rfl | h
    · rfl
    · rfl
    · exact not_ws_of_body (Or.inl h)
  have hr44 : rfindB (reprDec m s) 44 = none := by
    apply rfindB_eq_none
    intro x hx
    rcases hmem x hx with rfl | rfl | h
    · omega
    · omega
    · have := hdig_ge h
      omega
  have hcore : separatorCore (reprDec m s) = (i0 :: irest).map digitByte ++
      (if s = 0 then [] else 46 :: fp.map digitByte) := by
    by_cases h0 : s = 0
    · rw [if_pos h0]
      rw [if_pos h0] at heq
      have hr46 : rfindB (reprDec m s) 46 = none := by
        apply rfindB_eq_none
        intro x hx
        rw [heq] at hx
        rcases List.mem_append.mp hx with h1 | h1
        · rcases List.mem_append.mp h1 with h2 | h2
          · have := hsignmem x h2
            omega
          · have := hdig_ge (hmapdig x h2)
            omega
        · simp at h1
      simp only [separatorCore, hr46, hr44]
      rw [heq]
      unfold keepDigitsOnly
      rw [List.filter_append, List.filter_append]
      have f1 : (if m < 0 then ([45] : List Nat) else []).filter isDigitB = [] := by
        split <;> rfl
      have f2 : ((i0 :: irest).map digitByte).filter isDigitB = (i0 :: irest).map digitByte :=
        List.filter_eq_self.mpr hmapdig
      rw [f1, f2]
      rfl
    · rw [if_neg h0]
      rw [if_neg h0] at heq
      have hfpn46 : rfindB (fp.map digitByte) 46 = none := by
        apply rfindB_eq_none
        intro x hx
        have := hdig_ge (hfpdig x hx)
        omega
      have hmapn46 : rfindB ((i0 :: irest).map digitByte) 46 = none := by
        apply rfindB_eq_none
        intro x hx
        have := hdig_ge (hmapdig x hx)
        omega
      have hsignn46 : rfindB (if m < 0 then ([45] : List Nat) else []) 46 = none := by
        split <;> rfl
      have h46tail : rfindB (46 :: fp.map digitByte) 46 = some 0 := by
        unfold rfindB
        rw [hfpn46]
        rfl
      have hr46 : rfindB (reprDec m s) 46 =
          some (((if m < 0 then ([45] : List Nat) else []) ++
            (i0 :: irest).map digitByte).length + 0) := by
        rw [heq, rfindB_append, h46tail]
      have hcnt : (reprDec m s).count 46 = 1 := by
        rw [heq, List.count_append, List.count_append]
        have c1 : (if m < 0 then ([45] : List Nat) else []).count 46 = 0 := by
          split <;> decide
        have c2 : ((i0 :: irest).map digitByte).count 46 = 0 :=
          List.count_eq_zero.mpr (fun hmem46 => by
            have := hdig_ge (hmapdig _ hmem46)
            omega)
        have c3 : (fp.map digitByte).count 46 = 0 :=
          List.count_eq_zero.mpr (fun hmem46 => by
            have := hdig_ge (hfpdig _ hmem46)
            omega)
        rw [c1, c2, List.count_cons, c3]
        simp
      have hsignlen : (if m < 0 then ([45] : List Nat) else []).length ≤ 1 := by
        split <;> simp
      have hmaplen : ((if m < 0 then ([45] : List Nat) else []) ++
          (i0 :: irest).map digitByte).length ≤ 32 := by
        rw [List.length_append, List.length_map]
        omega
      have hmaplen1 : 1 ≤ ((if m < 0 then ([45] : List Nat) else []) ++
          (i0 :: irest).map digitByte).length := by
        rw [List.length_append, List.length_map]
        simp only [List.length_cons]
        omega
      have hlenrep : (reprDec m s).length =
          ((if m < 0 then ([45] : List Nat) else []) ++
            (i0 :: irest).map digitByte).length + (1 + s) := by
        rw [heq, List.length_append, List.length_cons, List.length_map, hlen]
        omega
      have hdot : dotAllThousands (reprDec m s) = false := by
        unfold dotAllThousands
        rw [hcnt, hr46, hlenrep]
        simp only [Option.getD_some]
        rw [usizeSub_three (((if m < 0 then ([45] : List Nat) else []) ++
            (i0 :: irest).map digitByte).length + (1 + s)) (by
          have hU : USIZE = 2 ^ 64 := rfl
          omega)]
        rw [if_pos (show 3 ≤ ((if m < 0 then ([45] : List Nat) else []) ++
            (i0 :: irest).map digitByte).length + (1 + s) from by omega)]
        have hd1 : decide ((1 : Nat) < 1) = false := by decide
        have hd2 : decide (((if m < 0 then ([45] : List Nat) else []) ++
            (i0 :: irest).map digitByte).length + 0 <
            ((if m < 0 then ([45] : List Nat) else []) ++
              (i0 :: irest).map digitByte).length + (1 + s) - 3) = false := by
          rw [decide_eq_false_iff_not]
          omega
        rw [hd1, hd2]
        rfl
      have hkeep : keepDigitsAndSep (reprDec m s) 46 46 =
          (i0 :: irest).map digitByte ++ (46 :: fp.map digitByte) := by
        rw [heq, keepDigitsAndSep_append, keepDigitsAndSep_append]
        have k1 : keepDigitsAndSep (if m < 0 then ([45] : List Nat) else []) 46 46 = [] := by
          split <;> decide
        have k2 : keepDigitsAndSep ((i0 :: irest).map digitByte) 46 46 =
            (i0 :: irest).map digitByte := keepDigitsAndSep_all_digits hmapdig 46 46
        have k3 : keepDigitsAndSep (46 :: fp.map digitByte) 46 46 = 46 :: fp.map digitByte := by
          show (if isDigitB 46 = true then 46 :: keepDigitsAndSep (fp.map digitByte) 46 46
            else if (46 == 46) = true then 46 :: keepDigitsAndSep (fp.map digitByte) 46 46
            else keepDigitsAndSep (fp.map digitByte) 46 46) = _
          rw [if_neg (by decide), if_pos (by decide),
            keepDigitsAndSep_all_digits hfpdig 46 46]
        rw [k1, k2, k3]
        rfl
      simp only [separatorCore, hr46, hr44, hdot, Bool.false_eq_true, if_false]
      exact hkeep
  by_cases hneg : m < 0
  · have hhead : (reprDec m s).head? = some 45 := by
      rw [heq, if_pos hneg]
      rfl
    unfold FlexibleDecimalVisitor.visit_str
    dsimp only
    rw [htrim, hhead]
    rw [show ((some (45 : Nat) == some 40)) = false from rfl]
    simp only [Bool.false_and, Bool.false_eq_true, if_false, Bool.false_or]
    rw [show ((some (45 : Nat) == some 45)) = true from rfl]
    simp only [if_true]
    rw [hcore]
    rw [show ((45 :: ((i0 :: irest).map digitByte ++
          (if s = 0 then [] else 46 :: fp.map digitByte))).head? == some 46) = false from rfl]
    simp only [Bool.false_eq_true, if_false]
    rw [show 45 :: ((i0 :: irest).map digitByte ++
          (if s = 0 then [] else 46 :: fp.map digitByte)) = reprDec m s from by
      rw [heq, if_pos hneg]
      rfl]
    exact decFromStr_repr m s hm hs
  · have hhead : (reprDec m s).head? = some (digitByte i0) := by
      rw [heq, if_neg hneg]
      rfl
    have e40 : ((some (digitByte i0) == some (40 : Nat))) = false := by
      simp only [beq_eq_false_iff_ne, ne_eq, Option.some.injEq, digitByte]
      omega
    have e45 : ((some (digitByte i0) == some (45 : Nat))) = false := by
      simp only [beq_eq_false_iff_ne, ne_eq, Option.some.injEq, digitByte]
      omega
    have e46 : ((some (digitByte i0) == some (46 : Nat))) = false := by
      simp only [beq_eq_false_iff_ne, ne_eq, Option.some.injEq, digitByte]
      omega
    unfold FlexibleDecimalVisitor.visit_str
    dsimp only
    rw [htrim, hhead, e40]
    simp only [Bool.false_and, Bool.false_eq_true, if_false, Bool.false_or]
    rw [e45]
    simp only [Bool.false_eq_true, if_false]
    rw [hcore]
    rw [show (((i0 :: irest).map digitByte ++
          (if s = 0 then [] else 46 :: fp.map digitByte)).head? = some (digitByte i0)) from
      rfl]
    rw [e46]
    simp only [Bool.false_eq_true, if_false]
    rw [show (i0 :: irest).map digitByte ++
          (if s = 0 then [] else 46 :: fp.map digitByte) = reprDec m s from by
      rw [heq, if_neg hneg]
      rfl]
    exact decFromStr_repr m s hm hs

/-- Claim C9 (amended): for every valid token whose normalized value has at
most 2 fractional digits and a 96-bit mantissa (every value `rust_decimal`
can hold), normalizing the canonical decimal string of the normalized value
is a no-op.  Values with 3 or more fractional digits — reachable only through
the both-separators branch — are refuted by `idempotence_counterexample`. -/
theorem normalize_repr_idempotent (j : RawToken) (v : Dec)
    (_h : deserialize_flexible_decimal j = .ok v)
    (hs : v.scale ≤ 2) (hm : v.mantissa.natAbs < 2 ^ 96) :
    deserialize_flexible_decimal (.str (reprDec v.mantissa v.scale)) = .ok v := by
  show Except.mapError FlexErr.parse
    (FlexibleDecimalVisitor.visit_str (reprDec v.mantissa v.scale)) = .ok v
  rw [visit_str_reprDec v.mantissa v.scale hm hs]
  rfl

/-- Witness for `normalize_repr_idempotent` at the token `"10.23"`. -/
theorem normalize_repr_idempotent_witness :
    deserialize_flexible_decimal (.str (reprDec 1023 2)) = .ok ⟨1023, 2⟩ ∧
    reprDec 1023 2 = enc "10.23" :=
  ⟨normalize_repr_idempotent (.str (enc "10,23")) ⟨1023, 2⟩ (by decide) (by decide)
      (by decide),
    by decide⟩

end SureClient
